import Mathlib

/-!
# Verification of the pyFarasa wrapper's text-surgery (src/farasa.py)

This development gives a shallow embedding of the pure text transformations
performed by `segment` and `POS_tag` in `src/farasa.py`.  Texts are modelled
as `List Char` (a Python `str` read from / written to a file wholesale).
The external Farasa jar executables are opaque: the theorems below are about
the regex pre/post processing the wrapper wraps around them.

Conventions of the embedding:
* `re.sub` and `re.findall` are modelled by a shared left-to-right scanner
  (`scanText`) parameterised by a matcher that mirrors the backtracking
  behaviour of the concrete Python pattern at one start position.  This is
  exactly Python's scan: try a match at each position, on success continue
  after the match (all patterns here can only match non-empty text), on
  failure advance one character.
* `str.format` with positional `{}` slots is modelled by `fparse`/`ffill`
  (`pyFormat`).  Only the brace forms the program can meet are given a
  result (`{{`, `}}`, `{}`); every other use of a bare brace is modelled as
  an error (`none`), mirroring the exceptions Python raises for stray or
  named fields (a numeric field like `{0}` would substitute positionally in
  Python, equally failing to preserve the text; the program itself only
  ever generates `{}`).
* Python's `\d` matches any Unicode decimal digit; the model covers the
  ASCII digits and the Arabic-Indic digit ranges U+0660–0669 / U+06F0–06F9,
  the ones that can occur in the Arabic/Latin documents this tool handles.
-/

/-- Does `pat` occur literally at the front of `s`? -/
def litMatch : List Char → List Char → Bool
  | [], _ => true
  | _ :: _, [] => false
  | c :: pat, d :: s => c = d && litMatch pat s

/-- Length of the maximal front run of characters satisfying `p`. -/
def runLen (p : Char → Bool) : List Char → Nat
  | [] => 0
  | c :: rest => if p c then runLen p rest + 1 else 0

/-- Does `pat` occur anywhere in `s` as a contiguous segment? -/
def hasSub (pat : List Char) : List Char → Bool
  | [] => litMatch pat []
  | c :: rest => litMatch pat (c :: rest) || hasSub pat rest

/-- Model of Python `\d` (see header note). -/
def isReDigit (c : Char) : Bool :=
  ('0' ≤ c && c ≤ '9') || ('٠' ≤ c && c ≤ '٩') ||
  ('۰' ≤ c && c ≤ '۹')

/-- Character class `[a-zA-Z\d .;#\n\r]` of `non_ar_regex` (farasa.py line 119). -/
def isClassA (c : Char) : Bool :=
  ('a' ≤ c && c ≤ 'z') || ('A' ≤ c && c ≤ 'Z') || isReDigit c ||
  c = ' ' || c = '.' || c = ';' || c = '#' || c = '\n' || c = '\r'

/-- Character class `[a-zA-Z\d.;#]` of `non_ar_regex` (farasa.py line 119). -/
def isClassB (c : Char) : Bool :=
  ('a' ≤ c && c ≤ 'z') || ('A' ≤ c && c ≤ 'Z') || isReDigit c ||
  c = '.' || c = ';' || c = '#'

/-- Is `c` one of the line-break characters `[\n\r]`? -/
def isNlCr (c : Char) : Bool := c = '\n' || c = '\r'

/-- After `k` repetitions of class A starting the match, can the tail
`[^\n\r][a-zA-Z\d.;#]` of `non_ar_regex` match?  (Checks positions `k` and
`k+1` of `s`.) -/
def tryTail (s : List Char) (k : Nat) : Bool :=
  match s.drop k with
  | c1 :: c2 :: _ => !(isNlCr c1) && isClassB c2
  | _ => false

/-- Greedy backtracking over the repetition count of `{6,}`: try `k`
repetitions, then `k-1`, … down to `6`; the match consumes `k + 2`
characters when the two-character tail fits. -/
def findK (s : List Char) : Nat → Option Nat
  | 0 => none
  | k + 1 =>
    if k + 1 < 6 then none
    else if tryTail s (k + 1) then some (k + 3)
    else findK s k

/-- Match of `non_ar_regex = ([a-zA-Z\d .;#\n\r]{6,}[^\n\r][a-zA-Z\d.;#])`
(farasa.py line 119) at the start of `s`: the greedy repetition first takes
the maximal class-A run, then backtracks.  Returns the matched length. -/
def matchNonAr (s : List Char) : Option Nat :=
  findK s (runLen isClassA s)

/-- One scanned piece of text: an unmatched literal character, or a pattern
match (carrying the matched text). -/
inductive Piece where
  | lit : Char → Piece
  | mat : List Char → Piece

/-- Left-to-right regex scan (fuelled; fuel ≥ length makes it total).  At
each position try the matcher; on success emit the match and continue after
it, otherwise emit one literal character and advance. -/
def scanWith (m : List Char → Option Nat) : Nat → List Char → List Piece
  | _, [] => []
  | 0, _ :: _ => []
  | fuel + 1, c :: rest =>
    match m (c :: rest) with
    | some n => Piece.mat ((c :: rest).take n) :: scanWith m fuel ((c :: rest).drop n)
    | none => Piece.lit c :: scanWith m fuel rest

/-- Scan a whole text (fuel = length suffices: every matcher below only
matches non-empty text). -/
def scanText (m : List Char → Option Nat) (s : List Char) : List Piece :=
  scanWith m s.length s

/-- Rebuild text from pieces, replacing every match by `repl`: the model of
`re.sub(pattern, repl, s)`. -/
def renderPieces (repl : List Char) : List Piece → List Char
  | [] => []
  | Piece.lit c :: ps => c :: renderPieces repl ps
  | Piece.mat _ :: ps => repl ++ renderPieces repl ps

/-- The matched texts, in scan order: the model of `re.findall(pattern, s)`
(the pattern's single group spans the whole match). -/
def matchesOf : List Piece → List (List Char)
  | [] => []
  | Piece.lit _ :: ps => matchesOf ps
  | Piece.mat x :: ps => x :: matchesOf ps

/-- `re.sub(pattern, repl, s)` for a matcher `m`. -/
def subWith (m : List Char → Option Nat) (repl : List Char) (s : List Char) : List Char :=
  renderPieces repl (scanText m s)

/-- `re.findall(pattern, s)` for a matcher `m`. -/
def findallWith (m : List Char → Option Nat) (s : List Char) : List (List Char) :=
  matchesOf (scanText m s)

/-- `re.findall(non_ar_regex, text)` — farasa.py line 130. -/
def findallNonAr (s : List Char) : List (List Char) := findallWith matchNonAr s

/-!
## Segmentation flow (farasa.py, `segment`, lines 66–93)
-/

/-- `re.sub("\+ة", "ة", text)` — farasa.py line 89.  The pattern is the
two-character literal `+ة`; Python replaces non-overlapping occurrences
left to right. -/
def replaceTaMarbuta : List Char → List Char
  | [] => []
  | '+' :: 'ة' :: rest => 'ة' :: replaceTaMarbuta rest
  | c :: rest => c :: replaceTaMarbuta rest

/-- `re.sub("\+", split_char, text)` — farasa.py line 91 (the split
character used in practice, such as `@`, contains no regex replacement
escapes). -/
def replacePlus (split : List Char) : List Char → List Char
  | [] => []
  | '+' :: rest => split ++ replacePlus split rest
  | c :: rest => c :: replacePlus split rest

/-- Contents of the output file after `segment`'s post-processing.  `raw`
is the text the external segmenter jar wrote to the output file; mirrors
farasa.py lines 85–93.  Python's `if split_char:` truthiness test is
`split ≠ []` (the empty string is falsy). -/
def segmentPost (restore : Bool) (split : List Char) (raw : List Char) : List Char :=
  if restore = true ∨ split ≠ ['+'] then
    let t := if restore then replaceTaMarbuta raw else raw
    if split ≠ [] then replacePlus split t else t
  else raw

/-!
## POS-tagging flow (farasa.py, `POS_tag`, lines 96–156)
-/

/-- `re.findall(non_ar_regex, text)` — farasa.py line 130: the non-Arabic
spans, in left-to-right order. -/
def non_ar_spans (text : List Char) : List (List Char) := findallNonAr text

/-- The placeholder line `"\nµµµ\n"` substituted for non-Arabic spans. -/
def nlMu : List Char := "\nµµµ\n".toList

/-- Pre-processed document in preservation mode (`only_Arabic` true,
`ditch_non_Arabic` false): `re.sub(non_ar_regex, "\nµµµ\n", text)` —
farasa.py line 131. -/
def posPreprocessKeep (text : List Char) : List Char :=
  subWith matchNonAr nlMu text

/-- Python `str.splitlines()` boundary characters, by code point:
LF 10, VT 11, FF 12, CR 13, FS 28, GS 29, RS 30, NEL 133 (U+0085),
LS 8232 (U+2028), PS 8233 (U+2029). -/
def isLineBreak (c : Char) : Bool :=
  c.toNat = 10 || c.toNat = 11 || c.toNat = 12 || c.toNat = 13 ||
  c.toNat = 28 || c.toNat = 29 || c.toNat = 30 || c.toNat = 133 ||
  c.toNat = 8232 || c.toNat = 8233

/-- Python `str.splitlines()` (keepends false): `\r\n` is one boundary,
then each single boundary character ends a line; trailing text after the
last boundary forms a final line only when non-empty. -/
def splitLines : List Char → List (List Char)
  | [] => []
  | '\r' :: '\n' :: rest => [] :: splitLines rest
  | c :: rest =>
    if isLineBreak c then [] :: splitLines rest
    else
      match splitLines rest with
      | [] => [[c]]
      | l :: ls => (c :: l) :: ls

/-- Characters removed by Python `str.strip()` (those with
`str.isspace()` true), by code point: TAB 9 through CR 13, FS 28 through
US 31, space 32, NEL 133, NBSP 160, Ogham space 5760 (U+1680), the
U+2000 to U+200A spaces 8192 to 8202, LS 8232, PS 8233, NNBSP 8239
(U+202F), MMSP 8287 (U+205F), ideographic space 12288 (U+3000). -/
def isPySpace (c : Char) : Bool :=
  (9 ≤ c.toNat && c.toNat ≤ 13) || (28 ≤ c.toNat && c.toNat ≤ 32) ||
  c.toNat = 133 || c.toNat = 160 || c.toNat = 5760 ||
  (8192 ≤ c.toNat && c.toNat ≤ 8202) || c.toNat = 8232 || c.toNat = 8233 ||
  c.toNat = 8239 || c.toNat = 8287 || c.toNat = 12288

/-- Python `str.strip()`: drop leading and trailing whitespace. -/
def pyStrip (l : List Char) : List Char :=
  ((l.dropWhile isPySpace).reverse.dropWhile isPySpace).reverse

/-- Python `"\n".join(lines)`. -/
def joinNL : List (List Char) → List Char
  | [] => []
  | [l] => l
  | l :: ls => l ++ '\n' :: joinNL ls

/-- Pre-processed document in removal mode (`ditch_non_Arabic` true) —
farasa.py lines 121–127: delete non-Arabic spans
(`re.sub(non_ar_regex, "\n", text)`), delete the characters `[#\|\$]`
(`re.sub("[#\|\$]", "", ar_only)`, a one-character class replaced by the
empty string, i.e. a filter), then keep the stripped non-blank lines,
joined with `"\n"`. -/
def posPreprocessDitch (text : List Char) : List Char :=
  let ar1 := subWith matchNonAr ['\n'] text
  let ar2 := ar1.filter (fun c => !(c = '#' || c = '|' || c = '$'))
  joinNL (((splitLines ar2).map pyStrip).filter (· ≠ []))

/-- The tagged rendering of the placeholder line — the literal core of the
pattern at farasa.py line 148. -/
def placeholderLit : List Char := "S/S µ/PUNC µ/PUNC µ/PUNC E/E".toList

/-- Match of `r"[\n\r]*S/S µ/PUNC µ/PUNC µ/PUNC E/E[\n\r]*"` (farasa.py
line 148) at the start of `s`: a maximal leading `[\n\r]` run (any shorter
run would put a line-break character where the literal `S` must be), the
literal, then a maximal trailing `[\n\r]` run. -/
def matchPlaceholder (s : List Char) : Option Nat :=
  let i := runLen isNlCr s
  if litMatch placeholderLit (s.drop i) then
    some (i + placeholderLit.length +
          runLen isNlCr (s.drop (i + placeholderLit.length)))
  else none

/-- `re.sub(pattern, "{}", ar_only)` — farasa.py line 149. -/
def subPlaceholder (tagged : List Char) : List Char :=
  subWith matchPlaceholder ['{', '}'] tagged

/-- The matches of the placeholder pattern in the tagged output. -/
def findallPlaceholder (tagged : List Char) : List (List Char) :=
  findallWith matchPlaceholder tagged

/-- Match of `r"### *[\n\r]*S/S"` (farasa.py line 151) at the start of
`s`: the literal `###`, a maximal space run, a maximal `[\n\r]` run, the
literal `S/S` (shorter runs would leave a space where a line break or `S`
must stand, or a line break where `S` must stand). -/
def matchHash (s : List Char) : Option Nat :=
  if litMatch "###".toList s then
    let i := 3 + runLen (· = ' ') (s.drop 3)
    let j := i + runLen isNlCr (s.drop i)
    if litMatch "S/S".toList (s.drop j) then some (j + 3) else none
  else none

/-- `re.sub(r"### *[\n\r]*S/S", "S/S #/PUNC #/PUNC #/PUNC", text)` —
farasa.py line 151. -/
def subHashArtifact (text : List Char) : List Char :=
  subWith matchHash "S/S #/PUNC #/PUNC #/PUNC".toList text

/-- The matches of the `###`-artifact pattern in a text. -/
def findallHash (text : List Char) : List (List Char) :=
  findallWith matchHash text

/-!
## Python `str.format` with positional `{}` slots (farasa.py line 150)

`fparse` tokenises the format string: `some c` is a literal output
character (`{{` and `}}` collapse to one brace), `none` is a `{}` slot;
any other bare brace is an error.  `ffill` then fills slots left to right
with the positional arguments; a slot beyond the arguments is an error
(Python raises `IndexError`), surplus arguments are ignored (Python
ignores extra positional arguments).
-/

/-- Tokenise a format string (see section header). -/
def fparse : List Char → Option (List (Option Char))
  | [] => some []
  | c :: rest =>
    if c = '{' then
      match rest with
      | [] => none
      | d :: rest2 =>
        if d = '}' then (fparse rest2).map (none :: ·)
        else if d = '{' then (fparse rest2).map (some '{' :: ·)
        else none
    else if c = '}' then
      match rest with
      | [] => none
      | d :: rest2 =>
        if d = '}' then (fparse rest2).map (some '}' :: ·) else none
    else (fparse rest).map (some c :: ·)

/-- Fill the slots of a tokenised format string with the positional
arguments, in order (see section header). -/
def ffill : List (Option Char) → List (List Char) → Option (List Char)
  | [], _ => some []
  | some c :: ts, args => (ffill ts args).map (c :: ·)
  | none :: _, [] => none
  | none :: ts, a :: args => (ffill ts args).map (a ++ ·)

/-- `s.format(*args)` for a string whose braces are positional `{}` slots
(plus `{{`/`}}` escapes) — the model of farasa.py line 150. -/
def pyFormat (s : List Char) (args : List (List Char)) : Option (List Char) :=
  (fparse s).bind (fun ts => ffill ts args)

/-- Number of `{}` slots of a tokenised format string. -/
def countSlots (ts : List (Option Char)) : Nat := ts.count none

/-- The literal segments between consecutive slots of a tokenised format
string (`k` slots give `k + 1` segments). -/
def segsOf : List (Option Char) → List (List Char)
  | [] => [[]]
  | some c :: ts =>
    match segsOf ts with
    | [] => [[c]]
    | l :: ls => (c :: l) :: ls
  | none :: ts => [] :: segsOf ts

/-- Positional pairing: `interleave [s0, s1, …, sk] [a0, …, a(k-1)] =
s0 ++ a0 ++ s1 ++ a1 ++ … ++ sk`. -/
def interleave : List (List Char) → List (List Char) → List Char
  | [], _ => []
  | [s], _ => s
  | s :: segs, [] => s ++ interleave segs []
  | s :: segs, a :: args => s ++ a ++ interleave segs args

/-- Post-processing of the tagged output file in preservation mode —
farasa.py lines 146–156: replace every occurrence of the tagged
placeholder pattern by a `{}` slot (line 149), fill the slots with the
remembered non-Arabic spans in order (line 150, `ar_only.format(*non_ar)`,
`none` modelling a raised exception), then repair the `###` artifact
(line 151).  Line 156's `"".join(text)` on a `str` is the identity. -/
def posRestore (tagged : List Char) (non_ar : List (List Char)) : Option (List Char) :=
  (pyFormat (subPlaceholder tagged) non_ar).map subHashArtifact

/-!
## Theorems
-/

/-- C1: in the segmentation flow with the reconnect flag set and a custom
split character, the two whole-file substitutions are applied reconnect
first: `segmentPost` is `replacePlus` after `replaceTaMarbuta`; and on raw
segmenter output `و+كتاب+ة` with split char `@` the result is `و@كتابة`,
which contains the reconnected `كتابة` and no `@` adjacent to its `ة`. -/
theorem segment_reconnect_before_split (raw : List Char) :
    segmentPost true ['@'] raw = replacePlus ['@'] (replaceTaMarbuta raw) ∧
    segmentPost true ['@'] "و+كتاب+ة".toList = "و@كتابة".toList ∧
    hasSub "كتابة".toList (segmentPost true ['@'] "و+كتاب+ة".toList) = true ∧
    hasSub "@ة".toList (segmentPost true ['@'] "و+كتاب+ة".toList) = false ∧
    hasSub "ة@".toList (segmentPost true ['@'] "و+كتاب+ة".toList) = false := by
  refine ⟨?_, by decide, by decide, by decide, by decide⟩
  simp [segmentPost]

/-- C6: with the reconnect flag unset and the default split character `+`,
the segmentation post-processing leaves the segmenter's output unchanged
(the `restore_ta_marbuta or split_char != "+"` guard at farasa.py line 85
is false and the file is never rewritten). -/
theorem segment_no_options_identity (raw : List Char) :
    segmentPost false ['+'] raw = raw := by
  simp [segmentPost]

/-- C8: for the input `"Hello world. مرحبا بالعالم"`, removal-mode
pre-processing deletes the Latin sentence and leaves exactly the Arabic
sentence `"مرحبا بالعالم"` to be tagged. -/
theorem ditch_removes_latin_sentence :
    posPreprocessDitch "Hello world. مرحبا بالعالم".toList =
      "مرحبا بالعالم".toList := by decide

/-- C10: in removal mode the `[#\|\$]` strip is applied to the whole
document: on `"مرحبا#بال|عالم$"`, which contains no non-Arabic span at
all, the `#`, `|` and `$` inside the Arabic text are still deleted, so the
Arabic content is not preserved verbatim. -/
theorem ditch_strips_inside_arabic :
    non_ar_spans "مرحبا#بال|عالم$".toList = [] ∧
    posPreprocessDitch "مرحبا#بال|عالم$".toList = "مرحبابالعالم".toList ∧
    posPreprocessDitch "مرحبا#بال|عالم$".toList ≠ "مرحبا#بال|عالم$".toList ∧
    '#' ∈ "مرحبا#بال|عالم$".toList ∧
    '#' ∉ posPreprocessDitch "مرحبا#بال|عالم$".toList := by
  refine ⟨by decide, by decide, by decide, by decide, by decide⟩

/-- C7 (counterexample): a located non-target span need not be a
contiguous run of characters from the pattern's classes — on `"abcdefم;"`
the single located span contains the Arabic letter `م` (matched by the
`[^\n\r]` slot), which is in neither class; and the bare six-character run
`"abcdef"`, although bounded by the ends of the document, is not located
at all. -/
theorem nonar_span_shape_cex :
    (∃ m ∈ findallNonAr "abcdefم;".toList,
        ∃ c ∈ m, isClassA c = false ∧ isClassB c = false) ∧
    findallNonAr "abcdef".toList = [] := by
  refine ⟨⟨"abcdefم;".toList, by decide, 'م', by decide, by decide, by decide⟩, by decide⟩

/-!
## Lemmas about the scanner
-/

/-- If a scan found no match, the substitution rebuilds the text
unchanged. -/
theorem renderPieces_eq_of_no_match (m : List Char → Option Nat) (repl : List Char) :
    ∀ (fuel : Nat) (s : List Char), s.length ≤ fuel →
      matchesOf (scanWith m fuel s) = [] →
      renderPieces repl (scanWith m fuel s) = s := by
  intro fuel
  induction fuel with
  | zero =>
    intro s hs hm
    cases s with
    | nil => rfl
    | cons c rest => simp at hs
  | succ fuel ih =>
    intro s hs hm
    cases s with
    | nil => rfl
    | cons c rest =>
      cases h : m (c :: rest) with
      | some n => simp [scanWith, h, matchesOf] at hm
      | none =>
        simp only [scanWith, h, matchesOf] at hm
        simp only [scanWith, h, renderPieces]
        rw [ih rest (by simpa using Nat.le_of_succ_le_succ hs) hm]

/-- `re.sub` is the identity on a text in which the pattern has no
match. -/
theorem subWith_eq_of_findall_nil (m : List Char → Option Nat) (repl s : List Char)
    (h : findallWith m s = []) : subWith m repl s = s :=
  renderPieces_eq_of_no_match m repl s.length s (Nat.le_refl _) h

/-- Every match produced by a scan is the matcher's match at the front of
some text. -/
theorem mem_matchesOf_scanWith (m : List Char → Option Nat) :
    ∀ (fuel : Nat) (s x : List Char), x ∈ matchesOf (scanWith m fuel s) →
      ∃ t n, m t = some n ∧ x = t.take n := by
  intro fuel
  induction fuel with
  | zero =>
    intro s x hx
    cases s with
    | nil => simp [scanWith, matchesOf] at hx
    | cons c rest => simp [scanWith, matchesOf] at hx
  | succ fuel ih =>
    intro s x hx
    cases s with
    | nil => simp [scanWith, matchesOf] at hx
    | cons c rest =>
      cases h : m (c :: rest) with
      | some n =>
        simp only [scanWith, h, matchesOf, List.mem_cons] at hx
        rcases hx with hx | hx
        · exact ⟨c :: rest, n, h, hx⟩
        · exact ih _ x hx
      | none =>
        simp only [scanWith, h, matchesOf] at hx
        exact ih rest x hx

/-- A successful `findK` names a repetition count `k` between `6` and the
bound, with the two-character pattern tail matching at position `k`. -/
theorem findK_some (s : List Char) :
    ∀ (k0 n : Nat), findK s k0 = some n →
      ∃ k, 6 ≤ k ∧ k ≤ k0 ∧ n = k + 2 ∧ tryTail s k = true := by
  intro k0
  induction k0 with
  | zero => intro n h; simp [findK] at h
  | succ k ih =>
    intro n h
    by_cases h6 : k + 1 < 6
    · simp [findK, h6] at h
    · by_cases ht : tryTail s (k + 1)
      · refine ⟨k + 1, Nat.not_lt.mp h6, Nat.le_refl _, ?_, ht⟩
        simp [findK, h6, ht] at h
        omega
      · simp only [findK, h6, if_false, ht] at h
        obtain ⟨j, h1, h2, h3, h4⟩ := ih n (by simpa [ht] using h)
        exact ⟨j, h1, Nat.le_succ_of_le h2, h3, h4⟩

/-- A `non_ar_regex` match consumes at least one character. -/
theorem matchNonAr_pos (s : List Char) (n : Nat) (h : matchNonAr s = some n) :
    0 < n := by
  obtain ⟨k, _, _, h3, _⟩ := findK_some s (runLen isClassA s) n h
  omega

/-- Characters inside the maximal front `p`-run satisfy `p`. -/
theorem take_runLen (p : Char → Bool) :
    ∀ (t : List Char) (k : Nat), k ≤ runLen p t → ∀ c ∈ t.take k, p c = true := by
  intro t
  induction t with
  | nil => intro k _ c hc; simp at hc
  | cons d rest ih =>
    intro k hk c hc
    by_cases hp : p d
    · cases k with
      | zero => simp at hc
      | succ k =>
        simp only [List.take_succ_cons, List.mem_cons] at hc
        rcases hc with hc | hc
        · exact hc ▸ hp
        · exact ih k (by simpa [runLen, hp] using hk) c hc
    · simp [runLen, hp] at hk
      subst hk
      simp at hc

/-- Each inserted placeholder line contributes exactly three `µ`
characters; a `µ`-free input contributes none. -/
theorem count_mu_render :
    ∀ (fuel : Nat) (s : List Char), s.length ≤ fuel → s.count 'µ' = 0 →
      (renderPieces nlMu (scanWith matchNonAr fuel s)).count 'µ' =
        3 * (matchesOf (scanWith matchNonAr fuel s)).length := by
  intro fuel
  induction fuel with
  | zero =>
    intro s hs _
    cases s with
    | nil => simp [scanWith, renderPieces, matchesOf]
    | cons c rest => simp at hs
  | succ fuel ih =>
    intro s hs hmu
    cases s with
    | nil => simp [scanWith, renderPieces, matchesOf]
    | cons c rest =>
      cases h : matchNonAr (c :: rest) with
      | some n =>
        have hn := matchNonAr_pos _ _ h
        have hdrop : ((c :: rest).drop n).count 'µ' = 0 := by
          have hle := (List.drop_sublist n (c :: rest)).count_le 'µ'
          omega
        have hs2 : rest.length + 1 ≤ fuel + 1 := by simpa using hs
        have hlen : ((c :: rest).drop n).length ≤ fuel := by
          simp only [List.length_drop, List.length_cons]
          omega
        simp only [scanWith, h, renderPieces, matchesOf, List.count_append,
          List.length_cons]
        rw [ih _ hlen hdrop]
        have h3 : nlMu.count 'µ' = 3 := by decide
        rw [h3]
        ring
      | none =>
        have hc : (c == 'µ') = false := by
          rcases hcc : c == 'µ' with _ | _
          · rfl
          · exfalso
            have : c = 'µ' := by simpa using hcc
            subst this
            simp [List.count_cons] at hmu
        have hrest : rest.count 'µ' = 0 := by
          rw [List.count_cons] at hmu
          omega
        simp only [scanWith, h, renderPieces, matchesOf, List.count_cons, hc]
        rw [ih rest (by simpa using Nat.le_of_succ_le_succ hs) hrest]
        simp

/-- C7 (amended): a span located by `non_ar_regex` consists of a run of at
least six characters from the class `[a-zA-Z\d .;#\n\r]`, followed by one
arbitrary non-line-break character (which may lie outside every class, for
example an Arabic letter) and one character from `[a-zA-Z\d.;#]`; located
spans are therefore at least eight characters long, and a bare run of six
class characters with no such two-character tail is not located. -/
theorem nonar_span_shape (s x : List Char) (hx : x ∈ findallNonAr s) :
    ∃ k, 6 ≤ k ∧ x.length = k + 2 ∧
      (∀ c ∈ x.take k, isClassA c = true) ∧
      ∃ c1 c2, x.drop k = [c1, c2] ∧ isNlCr c1 = false ∧ isClassB c2 = true := by
  obtain ⟨t, n, hm, hxe⟩ := mem_matchesOf_scanWith matchNonAr s.length s x hx
  obtain ⟨k, h6, hk, hn, htail⟩ := findK_some t (runLen isClassA t) n hm
  subst hn
  subst hxe
  unfold tryTail at htail
  cases hdrop : t.drop k with
  | nil => rw [hdrop] at htail; simp at htail
  | cons c1 tl =>
    cases tl with
    | nil => rw [hdrop] at htail; simp at htail
    | cons c2 r =>
      rw [hdrop] at htail
      simp only [Bool.and_eq_true, Bool.not_eq_true'] at htail
      have hlen2 : k + 2 ≤ t.length := by
        have hld : (t.drop k).length = t.length - k := List.length_drop k t
        rw [hdrop] at hld
        simp only [List.length_cons] at hld
        omega
      refine ⟨k, h6, ?_, ?_, c1, c2, ?_, htail.1, htail.2⟩
      · simp only [List.length_take]
        omega
      · intro c hc
        rw [List.take_take, Nat.min_eq_left (Nat.le_add_right k 2)] at hc
        exact take_runLen isClassA t k hk c hc
      · rw [List.drop_take, hdrop]
        have h2 : k + 2 - k = 2 := by omega
        rw [h2]
        rfl

/-!
## Lemmas about the format-string model
-/

theorem countSlots_some (c : Char) (ts : List (Option Char)) :
    countSlots (some c :: ts) = countSlots ts := by
  simp [countSlots]

theorem countSlots_none (ts : List (Option Char)) :
    countSlots (none :: ts) = countSlots ts + 1 := by
  simp [countSlots]

/-- Arguments beyond the number of slots are ignored (Python ignores
surplus positional arguments to `format`). -/
theorem ffill_append_extra :
    ∀ (ts : List (Option Char)) (args extra : List (List Char)),
      countSlots ts ≤ args.length → ffill ts (args ++ extra) = ffill ts args := by
  intro ts
  induction ts with
  | nil => intro args extra _; rfl
  | cons t ts ih =>
    intro args extra h
    cases t with
    | some c =>
      rw [countSlots_some] at h
      simp only [ffill]
      rw [ih args extra h]
    | none =>
      rw [countSlots_none] at h
      cases args with
      | nil => simp at h
      | cons a args =>
        simp only [List.cons_append, ffill]
        exact congrArg (Option.map fun x => a ++ x) (ih args extra (by simpa using h))

/-- A slot with no remaining argument raises (`IndexError`): fewer
arguments than slots give no result. -/
theorem ffill_eq_none_of_lt :
    ∀ (ts : List (Option Char)) (args : List (List Char)),
      args.length < countSlots ts → ffill ts args = none := by
  intro ts
  induction ts with
  | nil => intro args h; simp [countSlots] at h
  | cons t ts ih =>
    intro args h
    cases t with
    | some c =>
      rw [countSlots_some] at h
      simp only [ffill]
      rw [ih args h]
      rfl
    | none =>
      cases args with
      | nil => rfl
      | cons a args =>
        rw [countSlots_none] at h
        simp only [ffill]
        rw [ih args (by simpa using h)]
        rfl

theorem segsOf_ne_nil (ts : List (Option Char)) : segsOf ts ≠ [] := by
  induction ts with
  | nil => simp [segsOf]
  | cons t ts ih =>
    cases t with
    | some c =>
      simp only [segsOf]
      cases h : segsOf ts with
      | nil => simp
      | cons l ls => simp
    | none => simp [segsOf]

theorem interleave_cons_char (c : Char) (l : List Char) (ls args : List (List Char)) :
    interleave ((c :: l) :: ls) args = c :: interleave (l :: ls) args := by
  cases ls with
  | nil => cases args with
    | nil => rfl
    | cons a args => rfl
  | cons l2 ls => cases args with
    | nil => simp [interleave]
    | cons a args => simp [interleave]

/-- Filling with exactly as many arguments as slots pairs the `i`-th slot
with the `i`-th argument, in order: the result is the literal segments
interleaved with the arguments. -/
theorem ffill_interleave :
    ∀ (ts : List (Option Char)) (args : List (List Char)),
      countSlots ts = args.length →
      ffill ts args = some (interleave (segsOf ts) args) := by
  intro ts
  induction ts with
  | nil =>
    intro args h
    cases args with
    | nil => rfl
    | cons a as => simp [countSlots] at h
  | cons t ts ih =>
    intro args h
    cases t with
    | some c =>
      rw [countSlots_some] at h
      simp only [ffill]
      rw [ih args h]
      cases hs : segsOf ts with
      | nil => exact absurd hs (segsOf_ne_nil ts)
      | cons l ls =>
        have h2 : segsOf (some c :: ts) = (c :: l) :: ls := by
          simp [segsOf, hs]
        rw [h2, interleave_cons_char]
        rfl
    | none =>
      cases args with
      | nil => rw [countSlots_none] at h; simp at h
      | cons a args =>
        rw [countSlots_none] at h
        simp only [ffill]
        rw [ih args (by simpa using h)]
        cases hs : segsOf ts with
        | nil => exact absurd hs (segsOf_ne_nil ts)
        | cons l ls =>
          have h2 : segsOf (none :: ts) = [] :: l :: ls := by
            simp [segsOf, hs]
          rw [h2]
          rfl

theorem fparse_oc (rest : List Char) :
    fparse ('{' :: '}' :: rest) = (fparse rest).map (none :: ·) := rfl

theorem fparse_oo (rest : List Char) :
    fparse ('{' :: '{' :: rest) = (fparse rest).map (some '{' :: ·) := rfl

theorem fparse_cc (rest : List Char) :
    fparse ('}' :: '}' :: rest) = (fparse rest).map (some '}' :: ·) := rfl

theorem fparse_other (c : Char) (rest : List Char) (h1 : c ≠ '{') (h2 : c ≠ '}') :
    fparse (c :: rest) = (fparse rest).map (some c :: ·) := by
  rw [fparse.eq_def]
  simp [h1, h2]

/-- A brace-free string parses to itself: every character is a literal. -/
theorem fparse_braceFree :
    ∀ (s : List Char), (∀ c ∈ s, c ≠ '{' ∧ c ≠ '}') →
      fparse s = some (s.map some) := by
  intro s
  induction s with
  | nil => intro _; rfl
  | cons c rest ih =>
    intro h
    have hc := h c (List.mem_cons_self c rest)
    have hrest := fun d hd => h d (List.mem_cons_of_mem c hd)
    rw [fparse_other c rest hc.1 hc.2, ih hrest]
    rfl

/-- Filling a slot-free token list returns its literals, whatever the
arguments. -/
theorem ffill_map_some :
    ∀ (s : List Char) (args : List (List Char)), ffill (s.map some) args = some s := by
  intro s
  induction s with
  | nil => intro args; rfl
  | cons c rest ih =>
    intro args
    simp only [List.map_cons, ffill]
    rw [ih args]
    rfl

theorem countSlots_map_some (s : List Char) : countSlots (s.map some) = 0 := by
  induction s with
  | nil => rfl
  | cons c rest ih => rw [List.map_cons, countSlots_some]; exact ih

/-- `format` is the identity on a brace-free string. -/
theorem pyFormat_braceFree (s : List Char) (args : List (List Char))
    (h : ∀ c ∈ s, c ≠ '{' ∧ c ≠ '}') : pyFormat s args = some s := by
  unfold pyFormat
  rw [fparse_braceFree s h]
  exact ffill_map_some s args

/-- Tokenisation never lengthens, and shortens strictly as soon as a brace
occurs (`{{`, `}}` and `{}` each turn two characters into one token). -/
theorem fparse_length (s : List Char) :
    ∀ (ts : List (Option Char)), fparse s = some ts →
      ts.length ≤ s.length ∧ (('{' ∈ s ∨ '}' ∈ s) → ts.length < s.length) := by
  induction s using fparse.induct with
  | case1 =>
    intro ts h
    have h2 : some ([] : List (Option Char)) = some ts := h
    cases h2
    simp
  | case2 =>
    intro ts h
    exact Option.noConfusion h
  | case3 rest ih =>
    intro ts h
    rw [fparse_oc] at h
    cases hr : fparse rest with
    | none => rw [hr] at h; exact Option.noConfusion h
    | some ts2 =>
      rw [hr] at h
      have h2 : some (none :: ts2) = some ts := h
      cases h2
      have := (ih ts2 hr).1
      refine ⟨by simp; omega, fun _ => by simp; omega⟩
  | case4 rest hne ih =>
    intro ts h
    rw [fparse_oo] at h
    cases hr : fparse rest with
    | none => rw [hr] at h; exact Option.noConfusion h
    | some ts2 =>
      rw [hr] at h
      have h2 : some (some '{' :: ts2) = some ts := h
      cases h2
      have := (ih ts2 hr).1
      refine ⟨by simp; omega, fun _ => by simp; omega⟩
  | case5 c rest h1 h2 =>
    intro ts h
    rw [fparse.eq_def] at h
    simp [h1, h2] at h
  | case6 hne =>
    intro ts h
    exact Option.noConfusion h
  | case7 rest hne ih =>
    intro ts h
    rw [fparse_cc] at h
    cases hr : fparse rest with
    | none => rw [hr] at h; exact Option.noConfusion h
    | some ts2 =>
      rw [hr] at h
      have h2 : some (some '}' :: ts2) = some ts := h
      cases h2
      have := (ih ts2 hr).1
      refine ⟨by simp; omega, fun _ => by simp; omega⟩
  | case8 c rest h1 h2 =>
    intro ts h
    rw [fparse.eq_def] at h
    simp [h1] at h
  | case9 c rest h1 h2 ih =>
    intro ts h
    rw [fparse_other c rest h1 h2] at h
    cases hr : fparse rest with
    | none => rw [hr] at h; exact Option.noConfusion h
    | some ts2 =>
      rw [hr] at h
      have h2 : some (some c :: ts2) = some ts := h
      cases h2
      obtain ⟨hle, hlt⟩ := ih ts2 hr
      constructor
      · simp
        omega
      · intro hbr
        have hbr2 : '{' ∈ rest ∨ '}' ∈ rest := by
          rcases hbr with hb | hb
          · rcases List.mem_cons.mp hb with he | hm
            · exact absurd he.symm h1
            · exact Or.inl hm
          · rcases List.mem_cons.mp hb with he | hm
            · exact absurd he.symm h2
            · exact Or.inr hm
        have := hlt hbr2
        simp
        omega

/-- With no arguments, a successful fill keeps exactly one character per
token (every token must be a literal). -/
theorem ffill_nil_length :
    ∀ (ts : List (Option Char)) (r : List Char), ffill ts [] = some r →
      r.length = ts.length := by
  intro ts
  induction ts with
  | nil =>
    intro r h
    have h2 : some ([] : List Char) = some r := h
    cases h2
    rfl
  | cons t ts ih =>
    intro r h
    cases t with
    | some c =>
      simp only [ffill] at h
      cases hr : ffill ts [] with
      | none => rw [hr] at h; exact Option.noConfusion h
      | some r2 =>
        rw [hr] at h
        have h2 : some (c :: r2) = some r := h
        cases h2
        simp [ih r2 hr]
    | none => exact Option.noConfusion h

/-- The placeholder pattern only matches non-empty text (its literal core
is 28 characters). -/
theorem matchPlaceholder_pos (s : List Char) (n : Nat)
    (h : matchPlaceholder s = some n) : 0 < n := by
  simp only [matchPlaceholder] at h
  split at h
  · have h2 := Option.some.inj h
    have h3 : placeholderLit.length = 28 := by decide
    omega
  · exact Option.noConfusion h

/-- The `###` artifact pattern only matches non-empty text. -/
theorem matchHash_pos (s : List Char) (n : Nat)
    (h : matchHash s = some n) : 0 < n := by
  simp only [matchHash] at h
  split at h
  · split at h
    · have h2 := Option.some.inj h
      omega
    · exact Option.noConfusion h
  · exact Option.noConfusion h

/-- Substituting `{}` for every pattern match in a brace-free text yields a
well-formed format string with exactly one slot per match. -/
theorem fparse_render_scan (m : List Char → Option Nat)
    (hm : ∀ t n, m t = some n → 0 < n) :
    ∀ (fuel : Nat) (s : List Char), s.length ≤ fuel →
      (∀ c ∈ s, c ≠ '{' ∧ c ≠ '}') →
      ∃ ts, fparse (renderPieces ['{', '}'] (scanWith m fuel s)) = some ts ∧
        countSlots ts = (matchesOf (scanWith m fuel s)).length := by
  intro fuel
  induction fuel with
  | zero =>
    intro s hs hb
    cases s with
    | nil => exact ⟨[], rfl, rfl⟩
    | cons c rest => simp at hs
  | succ fuel ih =>
    intro s hs hb
    cases s with
    | nil => exact ⟨[], rfl, rfl⟩
    | cons c rest =>
      cases h : m (c :: rest) with
      | some n =>
        have hn := hm _ _ h
        have hs2 : rest.length + 1 ≤ fuel + 1 := by simpa using hs
        have hlen : ((c :: rest).drop n).length ≤ fuel := by
          simp only [List.length_drop, List.length_cons]
          omega
        have hb2 : ∀ d ∈ (c :: rest).drop n, d ≠ '{' ∧ d ≠ '}' :=
          fun d hd => hb d (List.drop_subset n (c :: rest) hd)
        obtain ⟨ts, h1, h2⟩ := ih ((c :: rest).drop n) hlen hb2
        refine ⟨none :: ts, ?_, ?_⟩
        · simp only [scanWith, h, renderPieces]
          rw [show ('{' :: '}' :: ([] : List Char)) ++
                renderPieces ['{', '}'] (scanWith m fuel ((c :: rest).drop n)) =
              '{' :: '}' ::
                renderPieces ['{', '}'] (scanWith m fuel ((c :: rest).drop n)) from rfl]
          rw [fparse_oc, h1]
          rfl
        · rw [countSlots_none, h2]
          simp [scanWith, h, matchesOf]
      | none =>
        have hc := hb c (List.mem_cons_self c rest)
        have hb2 : ∀ d ∈ rest, d ≠ '{' ∧ d ≠ '}' :=
          fun d hd => hb d (List.mem_cons_of_mem c hd)
        obtain ⟨ts, h1, h2⟩ :=
          ih rest (by simpa using Nat.le_of_succ_le_succ hs) hb2
        refine ⟨some c :: ts, ?_, ?_⟩
        · simp only [scanWith, h, renderPieces]
          rw [fparse_other c _ hc.1 hc.2, h1]
          rfl
        · rw [countSlots_some, h2]
          simp [scanWith, h, matchesOf]

/-- C2: in the preservation tagging flow the number of placeholder lines
inserted into the pre-processed document equals the number of extracted
non-Arabic spans (three `µ` characters per inserted `\nµµµ\n` line, for a
`µ`-free input), and when the tagged output yields exactly that many
restoration slots, restoration fills exactly those slots, pairing the
`i`-th slot with the `i`-th extracted span in left-to-right order
(`interleave` of the literal segments with the span list). -/
theorem tagging_preservation_counts (text tagged : List Char)
    (toks : List (Option Char))
    (hmu : text.count 'µ' = 0)
    (hp : fparse (subPlaceholder tagged) = some toks)
    (hc : countSlots toks = (non_ar_spans text).length) :
    (posPreprocessKeep text).count 'µ' = 3 * (non_ar_spans text).length ∧
    posRestore tagged (non_ar_spans text) =
      some (subHashArtifact (interleave (segsOf toks) (non_ar_spans text))) := by
  constructor
  · exact count_mu_render text.length text (Nat.le_refl _) hmu
  · show (pyFormat (subPlaceholder tagged) (non_ar_spans text)).map subHashArtifact = _
    unfold pyFormat
    rw [hp]
    show (ffill toks (non_ar_spans text)).map subHashArtifact = _
    rw [ffill_interleave toks (non_ar_spans text) hc]
    rfl

/-- Witness for C2 at a concrete input with one extracted span and one
placeholder occurrence in the tagged output. -/
theorem tagging_preservation_counts_witness :
    (posPreprocessKeep "abcdefgh. مرحبا".toList).count 'µ' =
      3 * (non_ar_spans "abcdefgh. مرحبا".toList).length ∧
    posRestore "مرحبا/NOUN\nS/S µ/PUNC µ/PUNC µ/PUNC E/E\n".toList
        (non_ar_spans "abcdefgh. مرحبا".toList) =
      some (subHashArtifact (interleave
        (segsOf ("مرحبا/NOUN".toList.map some ++ [none]))
        (non_ar_spans "abcdefgh. مرحبا".toList))) :=
  tagging_preservation_counts "abcdefgh. مرحبا".toList
    "مرحبا/NOUN\nS/S µ/PUNC µ/PUNC µ/PUNC E/E\n".toList
    ("مرحبا/NOUN".toList.map some ++ [none])
    (by decide) (by decide) (by decide)

/-- C3: on a document with no non-Arabic span, preservation-mode tagging
coincides with the direct path: the pre-processed text handed to the
external tagger is the input itself, and — as long as the tagger's output
contains no spontaneous occurrence of the placeholder pattern, no `###`
artifact and no brace characters — the post-processing returns the
tagger's output unchanged. -/
theorem tagging_no_spans_equals_direct (text tagged : List Char)
    (h1 : non_ar_spans text = [])
    (h2 : findallPlaceholder tagged = [])
    (h3 : findallHash tagged = [])
    (h4 : ∀ c ∈ tagged, c ≠ '{' ∧ c ≠ '}') :
    posPreprocessKeep text = text ∧
    posRestore tagged (non_ar_spans text) = some tagged := by
  constructor
  · exact subWith_eq_of_findall_nil matchNonAr nlMu text h1
  · have hsp : subPlaceholder tagged = tagged :=
      subWith_eq_of_findall_nil matchPlaceholder ['{', '}'] tagged h2
    show (pyFormat (subPlaceholder tagged) (non_ar_spans text)).map subHashArtifact =
      some tagged
    rw [hsp, h1, pyFormat_braceFree tagged [] h4]
    show some (subHashArtifact tagged) = some tagged
    rw [show subHashArtifact tagged = tagged from
      subWith_eq_of_findall_nil matchHash
        "S/S #/PUNC #/PUNC #/PUNC".toList tagged h3]

/-- Witness for C3 at a concrete span-free Arabic document and a typical
tagged output. -/
theorem tagging_no_spans_equals_direct_witness :
    posPreprocessKeep "مرحبا بالعالم".toList = "مرحبا بالعالم".toList ∧
    posRestore "مرحبا/NOUN بالعالم/NOUN".toList
      (non_ar_spans "مرحبا بالعالم".toList) =
      some "مرحبا/NOUN بالعالم/NOUN".toList :=
  tagging_no_spans_equals_direct "مرحبا بالعالم".toList
    "مرحبا/NOUN بالعالم/NOUN".toList
    (by decide) (by decide) (by decide) (by decide)

/-- C5: a slot-count mismatch in restoration is not detected: with more
restoration slots than extracted spans the positional substitution fails
(Python raises `IndexError`, modelled as `none`), and with fewer slots
than spans the surplus spans are silently dropped (the result is the same
as if they had never been extracted). -/
theorem restore_count_mismatch (tagged : List Char) (toks : List (Option Char))
    (non_ar extra : List (List Char))
    (hp : fparse (subPlaceholder tagged) = some toks) :
    (non_ar.length < countSlots toks → posRestore tagged non_ar = none) ∧
    (countSlots toks ≤ non_ar.length →
      posRestore tagged (non_ar ++ extra) = posRestore tagged non_ar) := by
  constructor
  · intro hlt
    show (pyFormat (subPlaceholder tagged) non_ar).map subHashArtifact = none
    unfold pyFormat
    rw [hp]
    show (ffill toks non_ar).map subHashArtifact = none
    rw [ffill_eq_none_of_lt toks non_ar hlt]
    rfl
  · intro hle
    show (pyFormat (subPlaceholder tagged) (non_ar ++ extra)).map subHashArtifact =
      (pyFormat (subPlaceholder tagged) non_ar).map subHashArtifact
    unfold pyFormat
    rw [hp]
    show (ffill toks (non_ar ++ extra)).map subHashArtifact =
      (ffill toks non_ar).map subHashArtifact
    rw [ffill_append_extra toks non_ar extra hle]

/-- Witness for C5: a tagged output with two placeholder occurrences,
first with one span (substitution fails), then with two spans plus one
surplus span (the surplus is dropped). -/
theorem restore_count_mismatch_witness :
    posRestore "x\nS/S µ/PUNC µ/PUNC µ/PUNC E/E\ny\nS/S µ/PUNC µ/PUNC µ/PUNC E/E\nz".toList
      ["A".toList] = none ∧
    posRestore "x\nS/S µ/PUNC µ/PUNC µ/PUNC E/E\ny\nS/S µ/PUNC µ/PUNC µ/PUNC E/E\nz".toList
      (["A".toList, "B".toList] ++ ["C".toList]) =
    posRestore "x\nS/S µ/PUNC µ/PUNC µ/PUNC E/E\ny\nS/S µ/PUNC µ/PUNC µ/PUNC E/E\nz".toList
      ["A".toList, "B".toList] := by
  constructor
  · exact (restore_count_mismatch
      "x\nS/S µ/PUNC µ/PUNC µ/PUNC E/E\ny\nS/S µ/PUNC µ/PUNC µ/PUNC E/E\nz".toList
      [some 'x', none, some 'y', none, some 'z']
      ["A".toList] [] (by decide)).1 (by decide)
  · exact (restore_count_mismatch
      "x\nS/S µ/PUNC µ/PUNC µ/PUNC E/E\ny\nS/S µ/PUNC µ/PUNC µ/PUNC E/E\nz".toList
      [some 'x', none, some 'y', none, some 'z']
      ["A".toList, "B".toList] ["C".toList] (by decide)).2 (by decide)

/-- C9: restoration reads the whole tagged output as a Python format
string.  For a brace-free tagged output the `{}` slots are exactly the
placeholder occurrences and restoration succeeds whenever their count
matches the span count; but a brace character in the tagged output that is
not part of a placeholder occurrence makes the `format` step either raise
(`none`) or return a text strictly shorter than — hence different from —
the tagger's output (shown for the representative span-free case). -/
theorem restore_brace_sensitivity (tagged : List Char) (non_ar : List (List Char)) :
    ((∀ c ∈ tagged, c ≠ '{' ∧ c ≠ '}') →
      ∃ toks, fparse (subPlaceholder tagged) = some toks ∧
        countSlots toks = (findallPlaceholder tagged).length ∧
        (countSlots toks = non_ar.length →
          ∃ r, posRestore tagged non_ar = some r)) ∧
    (findallPlaceholder tagged = [] → ('{' ∈ tagged ∨ '}' ∈ tagged) →
      ∀ r, pyFormat (subPlaceholder tagged) [] = some r →
        r.length < tagged.length ∧ r ≠ tagged) := by
  constructor
  · intro hb
    obtain ⟨toks, hp1, hp2⟩ := fparse_render_scan matchPlaceholder matchPlaceholder_pos
      tagged.length tagged (Nat.le_refl _) hb
    refine ⟨toks, hp1, hp2, fun hcount => ?_⟩
    refine ⟨subHashArtifact (interleave (segsOf toks) non_ar), ?_⟩
    have hp1a : fparse (subPlaceholder tagged) = some toks := hp1
    show (pyFormat (subPlaceholder tagged) non_ar).map subHashArtifact = _
    unfold pyFormat
    rw [hp1a]
    show (ffill toks non_ar).map subHashArtifact = _
    rw [ffill_interleave toks non_ar hcount]
    rfl
  · intro hnm hbr r hr
    have hsp : subPlaceholder tagged = tagged :=
      subWith_eq_of_findall_nil matchPlaceholder ['{', '}'] tagged hnm
    rw [hsp] at hr
    unfold pyFormat at hr
    cases hq : fparse tagged with
    | none => rw [hq] at hr; exact Option.noConfusion hr
    | some toks =>
      rw [hq] at hr
      have hr2 : ffill toks [] = some r := hr
      have hrlen : r.length = toks.length := ffill_nil_length toks r hr2
      have hlt := (fparse_length tagged toks hq).2 hbr
      refine ⟨by omega, fun he => ?_⟩
      rw [he] at hrlen
      omega

/-- Witness for C9: the guarantee applied to a brace-free tagged output,
and the corruption branch applied to `"a\x7b\x7bb"`, whose restoration returns
the strictly shorter `"a\x7bb"`. -/
theorem restore_brace_sensitivity_witness :
    (∃ toks, fparse (subPlaceholder "م/NOUN".toList) = some toks ∧
        countSlots toks = (findallPlaceholder "م/NOUN".toList).length ∧
        (countSlots toks = ([] : List (List Char)).length →
          ∃ r, posRestore "م/NOUN".toList [] = some r)) ∧
    ("a\x7bb".toList.length < "a\x7b\x7bb".toList.length ∧ "a\x7bb".toList ≠ "a\x7b\x7bb".toList) := by
  constructor
  · exact (restore_brace_sensitivity "م/NOUN".toList []).1 (by decide)
  · exact (restore_brace_sensitivity "a\x7b\x7bb".toList []).2 (by decide) (by decide)
      "a\x7bb".toList (by decide)

/-!
## Lemmas about lines, stripping and joining
-/

theorem mem_joinNL :
    ∀ (ls : List (List Char)) (c : Char), c ∈ joinNL ls →
      c = '\n' ∨ ∃ l ∈ ls, c ∈ l := by
  intro ls
  induction ls with
  | nil => intro c hc; simp [joinNL] at hc
  | cons l ls ih =>
    intro c hc
    cases ls with
    | nil =>
      exact Or.inr ⟨l, List.mem_cons_self l [], by simpa [joinNL] using hc⟩
    | cons l2 ls2 =>
      rw [show joinNL (l :: l2 :: ls2) = l ++ '\n' :: joinNL (l2 :: ls2) from rfl] at hc
      rcases List.mem_append.mp hc with h | h
      · exact Or.inr ⟨l, List.mem_cons_self l _, h⟩
      · rcases List.mem_cons.mp h with h | h
        · exact Or.inl h
        · rcases ih c h with h | ⟨l3, hl3, hc3⟩
          · exact Or.inl h
          · exact Or.inr ⟨l3, List.mem_cons_of_mem l hl3, hc3⟩

theorem splitLines_crlf (rest : List Char) :
    splitLines ('\r' :: '\n' :: rest) = [] :: splitLines rest := rfl

theorem splitLines_cr_cons (d : Char) (rest : List Char) (hd : d ≠ '\n') :
    splitLines ('\r' :: d :: rest) = [] :: splitLines (d :: rest) := by
  rw [splitLines.eq_def]
  simp [hd, isLineBreak]

theorem splitLines_break_nr (c : Char) (rest : List Char)
    (hb : isLineBreak c = true) (hcr : c ≠ '\r') :
    splitLines (c :: rest) = [] :: splitLines rest := by
  cases rest with
  | nil => rw [splitLines.eq_def]; simp [hb, hcr]
  | cons d rest2 => rw [splitLines.eq_def]; simp [hb, hcr]

/-- A break character that does not start a `\r\n` pair ends an empty
line segment. -/
theorem splitLines_break_step (c : Char) (rest : List Char)
    (hb : isLineBreak c = true)
    (himp : ∀ r, c = '\r' → rest = '\n' :: r → False) :
    splitLines (c :: rest) = [] :: splitLines rest := by
  by_cases hcr : c = '\r'
  · subst hcr
    cases rest with
    | nil => rfl
    | cons d rest2 =>
      have hd : d ≠ '\n' := by
        intro he
        subst he
        exact himp rest2 rfl rfl
      exact splitLines_cr_cons d rest2 hd
  · exact splitLines_break_nr c rest hb hcr

theorem splitLines_nb_nil (c : Char) (rest : List Char)
    (hc : isLineBreak c = false) (h : splitLines rest = []) :
    splitLines (c :: rest) = [[c]] := by
  have hr : c ≠ '\r' := by
    intro he
    rw [he] at hc
    simp [isLineBreak] at hc
  cases rest with
  | nil => rw [splitLines.eq_def]; simp [hc, hr]; rfl
  | cons d rest2 => rw [splitLines.eq_def]; simp [hc, hr, h]

theorem splitLines_nb_cons (c : Char) (rest : List Char)
    (l : List Char) (ls : List (List Char))
    (hc : isLineBreak c = false) (h : splitLines rest = l :: ls) :
    splitLines (c :: rest) = (c :: l) :: ls := by
  have hr : c ≠ '\r' := by
    intro he
    rw [he] at hc
    simp [isLineBreak] at hc
  cases rest with
  | nil =>
    exact absurd (show ([] : List (List Char)) = l :: ls from h) (by simp)
  | cons d rest2 => rw [splitLines.eq_def]; simp [hc, hr, h]

/-- Every character of every line of `splitLines s` is a character of
`s`. -/
theorem splitLines_subset (s : List Char) :
    ∀ l ∈ splitLines s, ∀ c ∈ l, c ∈ s := by
  induction s using splitLines.induct with
  | case1 =>
    intro l hl
    rw [show splitLines ([] : List Char) = [] from rfl] at hl
    simp at hl
  | case2 rest ih =>
    intro l hl c hc
    rw [splitLines_crlf] at hl
    rcases List.mem_cons.mp hl with h | h
    · subst h; simp at hc
    · exact List.mem_cons_of_mem _ (List.mem_cons_of_mem _ (ih l h c hc))
  | case3 c0 rest himp hb ih =>
    intro l hl c hc
    rw [splitLines_break_step c0 rest hb (fun r h1 h2 => himp r h1 h2)] at hl
    rcases List.mem_cons.mp hl with h | h
    · subst h; simp at hc
    · exact List.mem_cons_of_mem _ (ih l h c hc)
  | case4 c0 rest himp hb h0 ih =>
    intro l hl c hc
    rw [splitLines_nb_nil c0 rest (by simpa using hb) h0] at hl
    rcases List.mem_cons.mp hl with h | h
    · subst h
      rcases List.mem_cons.mp hc with h2 | h2
      · exact h2 ▸ List.mem_cons_self c0 rest
      · simp at h2
    · simp at h
  | case5 c0 rest himp hb l0 ls0 h0 ih =>
    intro l hl c hc
    rw [splitLines_nb_cons c0 rest l0 ls0 (by simpa using hb) h0] at hl
    rcases List.mem_cons.mp hl with h | h
    · subst h
      rcases List.mem_cons.mp hc with h2 | h2
      · exact h2 ▸ List.mem_cons_self c0 rest
      · exact List.mem_cons_of_mem _ (ih l0 (h0 ▸ List.mem_cons_self l0 ls0) c h2)
    · exact List.mem_cons_of_mem _ (ih l (h0 ▸ List.mem_cons_of_mem l0 h) c hc)

/-- No line of `splitLines s` contains a line-break character. -/
theorem splitLines_no_break (s : List Char) :
    ∀ l ∈ splitLines s, ∀ c ∈ l, isLineBreak c = false := by
  induction s using splitLines.induct with
  | case1 =>
    intro l hl
    rw [show splitLines ([] : List Char) = [] from rfl] at hl
    simp at hl
  | case2 rest ih =>
    intro l hl c hc
    rw [splitLines_crlf] at hl
    rcases List.mem_cons.mp hl with h | h
    · subst h; simp at hc
    · exact ih l h c hc
  | case3 c0 rest himp hb ih =>
    intro l hl c hc
    rw [splitLines_break_step c0 rest hb (fun r h1 h2 => himp r h1 h2)] at hl
    rcases List.mem_cons.mp hl with h | h
    · subst h; simp at hc
    · exact ih l h c hc
  | case4 c0 rest himp hb h0 ih =>
    intro l hl c hc
    rw [splitLines_nb_nil c0 rest (by simpa using hb) h0] at hl
    rcases List.mem_cons.mp hl with h | h
    · subst h
      rcases List.mem_cons.mp hc with h2 | h2
      · subst h2; simpa using hb
      · simp at h2
    · simp at h
  | case5 c0 rest himp hb l0 ls0 h0 ih =>
    intro l hl c hc
    rw [splitLines_nb_cons c0 rest l0 ls0 (by simpa using hb) h0] at hl
    rcases List.mem_cons.mp hl with h | h
    · subst h
      rcases List.mem_cons.mp hc with h2 | h2
      · subst h2; simpa using hb
      · exact ih l0 (h0 ▸ List.mem_cons_self l0 ls0) c h2
    · exact ih l (h0 ▸ List.mem_cons_of_mem l0 h) c hc

/-- A non-empty break-free text is a single line. -/
theorem splitLines_single :
    ∀ (l : List Char), l ≠ [] → (∀ c ∈ l, isLineBreak c = false) →
      splitLines l = [l] := by
  intro l
  induction l with
  | nil => intro h _; exact absurd rfl h
  | cons c rest ih =>
    intro _ hnb
    have hc := hnb c (List.mem_cons_self c rest)
    cases rest with
    | nil => exact splitLines_nb_nil c [] hc rfl
    | cons d rest2 =>
      have hrest : splitLines (d :: rest2) = [d :: rest2] :=
        ih (by simp) (fun x hx => hnb x (List.mem_cons_of_mem c hx))
      exact splitLines_nb_cons c (d :: rest2) (d :: rest2) [] hc hrest

/-- Splitting a break-free prefix followed by `\n` peels off exactly that
prefix as one line. -/
theorem splitLines_append_nl :
    ∀ (l y : List Char), (∀ c ∈ l, isLineBreak c = false) →
      splitLines (l ++ '\n' :: y) = l :: splitLines y := by
  intro l
  induction l with
  | nil =>
    intro y _
    rw [List.nil_append]
    exact splitLines_break_nr '\n' y (by simp [isLineBreak]) (by decide)
  | cons c rest ih =>
    intro y hnb
    have hc := hnb c (List.mem_cons_self c rest)
    rw [List.cons_append]
    exact splitLines_nb_cons c (rest ++ '\n' :: y) rest (splitLines y) hc
      (ih y (fun x hx => hnb x (List.mem_cons_of_mem c hx)))

/-- `splitLines` is a left inverse of `joinNL` on lists of non-empty
break-free lines. -/
theorem splitLines_joinNL :
    ∀ (ls : List (List Char)),
      (∀ l ∈ ls, l ≠ [] ∧ ∀ c ∈ l, isLineBreak c = false) →
      splitLines (joinNL ls) = ls := by
  intro ls
  induction ls with
  | nil => intro _; rfl
  | cons l ls ih =>
    intro h
    have hl := h l (List.mem_cons_self l ls)
    cases ls with
    | nil =>
      rw [show joinNL [l] = l from rfl]
      exact splitLines_single l hl.1 hl.2
    | cons l2 ls2 =>
      rw [show joinNL (l :: l2 :: ls2) = l ++ '\n' :: joinNL (l2 :: ls2) from rfl]
      rw [splitLines_append_nl l (joinNL (l2 :: ls2)) hl.2]
      rw [ih (fun x hx => h x (List.mem_cons_of_mem l hx))]

theorem mem_pyStrip (l : List Char) (c : Char) (h : c ∈ pyStrip l) : c ∈ l := by
  unfold pyStrip at h
  rw [List.mem_reverse] at h
  have h2 := (List.dropWhile_suffix isPySpace).subset h
  rw [List.mem_reverse] at h2
  exact (List.dropWhile_suffix isPySpace).subset h2

theorem dropWhile_eq_self_of_head (p : Char → Bool) (l : List Char)
    (h : ∀ c, l.head? = some c → p c = false) : l.dropWhile p = l := by
  cases l with
  | nil => rfl
  | cons c rest =>
    have hc := h c rfl
    simp [List.dropWhile_cons, hc]

theorem prefix_head (t u : List Char) (h : t <+: u) (hne : t ≠ []) :
    t.head? = u.head? := by
  obtain ⟨s, rfl⟩ := h
  cases t with
  | nil => exact absurd rfl hne
  | cons c r => rfl

theorem stripRight_prefix (u : List Char) :
    (u.reverse.dropWhile isPySpace).reverse <+: u := by
  have h := List.dropWhile_suffix (l := u.reverse) isPySpace
  have h2 := List.reverse_prefix.mpr h
  simpa using h2

theorem pyStrip_idem (l : List Char) : pyStrip (pyStrip l) = pyStrip l := by
  have hvu : ((l.dropWhile isPySpace).reverse.dropWhile isPySpace).reverse <+:
      l.dropWhile isPySpace := stripRight_prefix (l.dropWhile isPySpace)
  have hv_drop :
      (((l.dropWhile isPySpace).reverse.dropWhile isPySpace).reverse).dropWhile isPySpace =
      ((l.dropWhile isPySpace).reverse.dropWhile isPySpace).reverse := by
    apply dropWhile_eq_self_of_head
    intro d hd
    have hne : ((l.dropWhile isPySpace).reverse.dropWhile isPySpace).reverse ≠ [] := by
      intro he
      rw [he] at hd
      exact Option.noConfusion hd
    have hh := prefix_head _ _ hvu hne
    rw [hd] at hh
    have h3 := List.head?_dropWhile_not isPySpace l
    rw [← hh] at h3
    exact h3
  show (((pyStrip l).dropWhile isPySpace).reverse.dropWhile isPySpace).reverse = pyStrip l
  unfold pyStrip
  rw [hv_drop, List.reverse_reverse, List.dropWhile_idempotent]

/-- C4: the removal-mode pre-processed document contains none of the
characters `#`, `|`, `$`, has no blank line, and each of its lines is
already stripped of leading and trailing whitespace. -/
theorem ditch_output_clean (text : List Char) :
    (∀ c ∈ posPreprocessDitch text, c ≠ '#' ∧ c ≠ '|' ∧ c ≠ '$') ∧
    (∀ l ∈ splitLines (posPreprocessDitch text), l ≠ [] ∧ pyStrip l = l) := by
  have hout : posPreprocessDitch text =
      joinNL (((splitLines ((subWith matchNonAr ['\n'] text).filter
        (fun c => !(c = '#' || c = '|' || c = '$')))).map pyStrip).filter
          (· ≠ [])) := rfl
  have hls_prop : ∀ l ∈ ((splitLines ((subWith matchNonAr ['\n'] text).filter
        (fun c => !(c = '#' || c = '|' || c = '$')))).map pyStrip).filter (· ≠ []),
      l ≠ [] ∧ ∀ c ∈ l, isLineBreak c = false := by
    intro l hl
    obtain ⟨hmem, hne⟩ := List.mem_filter.mp hl
    obtain ⟨l0, hl0, rfl⟩ := List.mem_map.mp hmem
    refine ⟨by simpa using hne, ?_⟩
    intro c hc
    exact splitLines_no_break _ l0 hl0 c (mem_pyStrip l0 c hc)
  constructor
  · intro c hc
    rw [hout] at hc
    rcases mem_joinNL _ c hc with h | ⟨l, hl, hcl⟩
    · subst h
      refine ⟨by decide, by decide, by decide⟩
    · obtain ⟨hmem, hne⟩ := List.mem_filter.mp hl
      obtain ⟨l0, hl0, rfl⟩ := List.mem_map.mp hmem
      have hc2 := splitLines_subset _ l0 hl0 c (mem_pyStrip l0 c hcl)
      obtain ⟨_, hp⟩ := List.mem_filter.mp hc2
      simp only [Bool.not_eq_true', Bool.or_eq_false_iff, decide_eq_false_iff_not] at hp
      exact ⟨hp.1.1, hp.1.2, hp.2⟩
  · intro l hl
    rw [hout, splitLines_joinNL _ hls_prop] at hl
    refine ⟨(hls_prop l hl).1, ?_⟩
    obtain ⟨hmem, _⟩ := List.mem_filter.mp hl
    obtain ⟨l0, _, rfl⟩ := List.mem_map.mp hmem
    exact pyStrip_idem l0

/-- Witness for C4 at a concrete input with a `#`, surrounding whitespace
and a blank line. -/
theorem ditch_output_clean_witness :
    ('م' ≠ '#' ∧ 'م' ≠ '|' ∧ 'م' ≠ '$') ∧
    ("مرحبا".toList ≠ [] ∧ pyStrip "مرحبا".toList = "مرحبا".toList) :=
  ⟨(ditch_output_clean "  مرحبا# \n\n".toList).1 'م' (by decide),
   (ditch_output_clean "  مرحبا# \n\n".toList).2 "مرحبا".toList (by decide)⟩


/-- Witness for the amended C7 at the concrete located span `"abcdefم;"`
(the whole input is the single located span). -/
theorem nonar_span_shape_witness :
    ∃ k, 6 ≤ k ∧ "abcdefم;".toList.length = k + 2 ∧
      (∀ c ∈ "abcdefم;".toList.take k, isClassA c = true) ∧
      ∃ c1 c2, "abcdefم;".toList.drop k = [c1, c2] ∧
        isNlCr c1 = false ∧ isClassB c2 = true :=
  nonar_span_shape "abcdefم;".toList "abcdefم;".toList (by decide)
